import Mathlib

/-!
Shallow embedding of `nemesis/event_generation/detector.py`.

Conventions of the embedding:
* Machine floats are modelled by real numbers (`ℝ`); hit times, which are
  only ever compared, counted and sorted, are modelled by rationals (`ℚ`)
  so that the noise pipeline stays executable.
* Randomness is made explicit: every function that consumes a NumPy
  `RandomState` instead receives the sequence of draws it would make, as
  plain function arguments, together with hypotheses recording the ranges
  the generator guarantees (e.g. a uniform(0, 1) draw lies in `[0, 1]`).
* A Python constructor that can raise is modelled as a function into
  `Except String _`.
-/

namespace Nemesis

/-- A 3-component position vector, modelling a NumPy `(x, y, z)` array. -/
structure Vec3 where
  x : ℝ
  y : ℝ
  z : ℝ

/-- Euclidean norm of a position, `np.linalg.norm(pos)`. -/
noncomputable def norm3 (v : Vec3) : ℝ := Real.sqrt (v.x ^ 2 + v.y ^ 2 + v.z ^ 2)

/-- Norm of the horizontal `(x, y)` projection, `np.linalg.norm(pos[:2])`. -/
noncomputable def normXY (v : Vec3) : ℝ := Real.sqrt (v.x ^ 2 + v.y ^ 2)

/-- Source `Module(pos, key, noise_rate, efficiency)` from `detector.py`:
a detection module; `key` is the `(line_id, index)` pair used by
`make_line`. -/
structure Module where
  pos : Vec3
  key : ℤ × ℕ
  noise_rate : ℝ
  efficiency : ℝ

instance : Inhabited Module := ⟨⟨⟨0, 0, 0⟩, (0, 0), 1, 0.2⟩⟩

/-- Maximum of a nonempty collection, written as `xs.foldl max x`:
this is `np.max` over the array whose entries are `x :: xs`. -/
def listMax1 {α : Type} [LinearOrder α] (x : α) (xs : List α) : α :=
  xs.foldl max x

theorem le_listMax1_left {α : Type} [LinearOrder α] (x : α) (xs : List α) :
    x ≤ listMax1 x xs := by
  induction xs generalizing x with
  | nil => exact le_refl x
  | cons a t ih =>
      calc x ≤ max x a := le_max_left x a
        _ ≤ listMax1 (max x a) t := ih (max x a)

theorem le_listMax1_of_mem {α : Type} [LinearOrder α] {a : α} (x : α)
    {xs : List α} (h : a ∈ xs) : a ≤ listMax1 x xs := by
  induction xs generalizing x with
  | nil => cases h
  | cons b t ih =>
      rcases List.mem_cons.mp h with hb | ht
      · subst hb
        calc a ≤ max x a := le_max_right x a
          _ ≤ listMax1 (max x a) t := le_listMax1_left _ t
      · exact ih (max x b) ht

theorem listMax1_eq_or_mem {α : Type} [LinearOrder α] (x : α) (xs : List α) :
    listMax1 x xs = x ∨ listMax1 x xs ∈ xs := by
  induction xs generalizing x with
  | nil => exact Or.inl rfl
  | cons a t ih =>
      have h : listMax1 x (a :: t) = listMax1 (max x a) t := rfl
      rcases ih (max x a) with h1 | h1
      · rcases max_choice x a with hx | ha
        · exact Or.inl (by rw [h, h1, hx])
        · exact Or.inr (by rw [h, h1, ha]; exact List.mem_cons_self a t)
      · exact Or.inr (List.mem_cons_of_mem a (h ▸ h1))

/-- Source `Detector(modules)` from `detector.py`: the stored module list together
with the aggregate arrays and bounding measures computed in `__init__`. -/
structure Detector where
  modules : List Module
  module_coords : List Vec3
  module_efficiencies : List ℝ
  module_noise_rates : List ℝ
  outer_radius : ℝ
  outer_cylinder : ℝ × ℝ
  n_modules : ℕ

/-- Source `Detector.__init__`: on an empty module list `np.vstack([])` raises
`ValueError("need at least one array to concatenate")`, modelled as
`Except.error`; otherwise all derived attributes are computed as in the
source (`_outer_radius` is the max Euclidean norm, `_outer_cylinder` is
`(max horizontal norm, 2 * |max z|)`). -/
noncomputable def Detector.init : List Module → Except String Detector
  | [] => Except.error "need at least one array to concatenate"
  | m :: ms => Except.ok
      { modules := m :: ms
        module_coords := (m :: ms).map fun k => k.pos
        module_efficiencies := (m :: ms).map fun k => k.efficiency
        module_noise_rates := (m :: ms).map fun k => k.noise_rate
        outer_radius := listMax1 (norm3 m.pos) (ms.map fun k => norm3 k.pos)
        outer_cylinder :=
          (listMax1 (normXY m.pos) (ms.map fun k => normXY k.pos),
            2 * |listMax1 m.pos.z (ms.map fun k => k.pos.z)|)
        n_modules := (m :: ms).length }

/-- Source `trigger(det, event_times, mod_thresh, phot_thres)` from `detector.py`:
`hits_per_module = ak.count(event_times, axis=1)` is the per-module hit
count; `ak.sum(hits_per_module > phot_thres)` sums the boolean mask as
integers; the result is `True` iff that sum exceeds `mod_thresh`.  The
element type of the ragged array is irrelevant (only counts are used), so
it is a type parameter; `det` is received but never used, as in the
source. -/
def trigger {α : Type} (det : Detector) (event_times : List (List α))
    (mod_thresh phot_thres : ℤ) : Bool :=
  let hits_per_module := event_times.map fun ts => (ts.length : ℤ)
  decide
    ((hits_per_module.map fun c => if phot_thres < c then (1 : ℤ) else 0).sum
      > mod_thresh)

theorem sum_indicator_eq_countP {α : Type} (p : α → Bool) (l : List α) :
    (l.map fun a => if p a then (1 : ℤ) else 0).sum = (l.countP p : ℤ) := by
  induction l with
  | nil => simp
  | cons a t ih =>
      by_cases h : p a
      · simp [h, ih, List.countP_cons, add_comm]
      · simp [h, ih, List.countP_cons]

/-- An arbitrary concrete detector used to instantiate the (unused)
`det` argument of `trigger` in concrete evaluations. -/
def junkDetector : Detector :=
  { modules := []
    module_coords := []
    module_efficiencies := []
    module_noise_rates := []
    outer_radius := 0
    outer_cylinder := (0, 0)
    n_modules := 0 }

/-- Ten modules, nine of which recorded 6 hits and one 0 hits. -/
def exNine : List (List ℚ) :=
  List.replicate 9 (List.replicate 6 (0 : ℚ)) ++ [[]]

/-- Ten modules, eight of which recorded 6 hits and two 0 hits. -/
def exEight : List (List ℚ) :=
  List.replicate 8 (List.replicate 6 (0 : ℚ)) ++ [[], []]

/-- C1: `trigger` returns true iff the number of modules whose hit-time
count strictly exceeds `phot_thres` strictly exceeds `mod_thresh`; with 9
qualifying modules and `mod_thresh = 8` it returns true, and with exactly
8 qualifying modules and `mod_thresh = 8` it returns false. -/
theorem trigger_iff_module_count :
    (∀ (α : Type) (det : Detector) (event_times : List (List α))
        (mod_thresh phot_thres : ℤ),
      trigger det event_times mod_thresh phot_thres = true ↔
        mod_thresh <
          ((event_times.countP fun ts => decide (phot_thres < (ts.length : ℤ))) : ℤ))
    ∧ trigger junkDetector exNine 8 5 = true
    ∧ trigger junkDetector exEight 8 5 = false := by
  refine ⟨?_, by decide, by decide⟩
  intro α det event_times mod_thresh phot_thres
  unfold trigger
  rw [decide_eq_true_iff, List.map_map]
  have hfun :
      ((fun c : ℤ => if phot_thres < c then (1 : ℤ) else 0)
          ∘ fun ts : List α => (ts.length : ℤ))
        = fun ts : List α =>
            if (fun u : List α => decide (phot_thres < (u.length : ℤ))) ts
            then (1 : ℤ) else 0 := by
    funext ts
    by_cases h : phot_thres < (ts.length : ℤ) <;> simp [h]
  rw [hfun, sum_indicator_eq_countP]

/-- C10: the result of `trigger` does not depend on its `det` argument:
any two detectors give the same decision on the same ragged hit-time
collection and thresholds. -/
theorem trigger_det_independent {α : Type} (d1 d2 : Detector)
    (event_times : List (List α)) (mod_thresh phot_thres : ℤ) :
    trigger d1 event_times mod_thresh phot_thres
      = trigger d2 event_times mod_thresh phot_thres := rfl

/-- Unfolding lemma for `Detector.init` on a nonempty module list. -/
theorem Detector.init_cons (m : Module) (ms : List Module) :
    Detector.init (m :: ms) = Except.ok
      { modules := m :: ms
        module_coords := (m :: ms).map fun k => k.pos
        module_efficiencies := (m :: ms).map fun k => k.efficiency
        module_noise_rates := (m :: ms).map fun k => k.noise_rate
        outer_radius := listMax1 (norm3 m.pos) (ms.map fun k => norm3 k.pos)
        outer_cylinder :=
          (listMax1 (normXY m.pos) (ms.map fun k => normXY k.pos),
            2 * |listMax1 m.pos.z (ms.map fun k => k.pos.z)|)
        n_modules := (m :: ms).length } := rfl

/-- The derived attributes of a successfully constructed detector, as
computed by `Detector.__init__`. -/
theorem Detector.init_fields (m : Module) (ms : List Module) (d : Detector)
    (h : Detector.init (m :: ms) = Except.ok d) :
    d.outer_radius = listMax1 (norm3 m.pos) (ms.map fun k => norm3 k.pos)
    ∧ d.outer_cylinder.1 = listMax1 (normXY m.pos) (ms.map fun k => normXY k.pos)
    ∧ d.outer_cylinder.2 = 2 * |listMax1 m.pos.z (ms.map fun k => k.pos.z)|
    ∧ d.n_modules = (m :: ms).length := by
  rw [Detector.init_cons] at h
  injection h with h
  refine ⟨?_, ?_, ?_, ?_⟩ <;> rw [← h]

/-- C7: for a detector built from a nonempty module list, `outer_radius`
is the maximum Euclidean norm of the module positions (it dominates every
norm of each module and is attained by some module) and `n_modules` is the
length of the input list. -/
theorem outer_radius_max_norm (m : Module) (ms : List Module) (d : Detector)
    (h : Detector.init (m :: ms) = Except.ok d) :
    (∀ mod ∈ m :: ms, norm3 mod.pos ≤ d.outer_radius)
    ∧ (∃ mod ∈ m :: ms, norm3 mod.pos = d.outer_radius)
    ∧ d.n_modules = (m :: ms).length := by
  obtain ⟨hr, -, -, hn⟩ := Detector.init_fields m ms d h
  rw [hr, hn]
  refine ⟨?_, ?_, rfl⟩
  · intro mod hmod
    rcases List.mem_cons.mp hmod with hm | hm
    · subst hm; exact le_listMax1_left _ _
    · exact le_listMax1_of_mem (norm3 m.pos) (List.mem_map.mpr ⟨mod, hm, rfl⟩)
  · rcases listMax1_eq_or_mem (norm3 m.pos) (ms.map fun k => norm3 k.pos)
        with h1 | h1
    · exact ⟨m, List.mem_cons_self m ms, h1.symm⟩
    · rcases List.mem_map.mp h1 with ⟨k, hk, hkeq⟩
      exact ⟨k, List.mem_cons_of_mem m hk, hkeq⟩

/-- Module with position `(3, 4, 12)` used to instantiate C7. -/
def mRadius : Module := ⟨⟨3, 4, 12⟩, (0, 0), 1, 0.2⟩

/-- Witness for C7 at the singleton module list `[mRadius]`. -/
theorem outer_radius_max_norm_witness :
    ∃ d, Detector.init [mRadius] = Except.ok d
      ∧ ((∀ mod ∈ [mRadius], norm3 mod.pos ≤ d.outer_radius)
        ∧ (∃ mod ∈ [mRadius], norm3 mod.pos = d.outer_radius)
        ∧ d.n_modules = ([mRadius] : List Module).length) :=
  ⟨_, rfl, outer_radius_max_norm mRadius [] _ rfl⟩

/-- C9: constructing a detector from an empty module list fails fast:
`np.vstack([])` raises `ValueError("need at least one array to
concatenate")`, so `Detector.init []` is that error and no detector value
is produced. -/
theorem detector_init_empty_fails :
    Detector.init ([] : List Module)
      = Except.error "need at least one array to concatenate" := rfl

/-- Module at `(0, 0, -10)`: below the bottom of the derived cylinder. -/
def mLow : Module := ⟨⟨0, 0, -10⟩, (0, 0), 1, 0.2⟩

/-- Module at `(0, 0, 5)`. -/
def mHigh : Module := ⟨⟨0, 0, 5⟩, (0, 1), 1, 0.2⟩

/-- C6 counterexample: the derived cylinder height is `2 * |max z|`, so
for modules at `z = -10` and `z = 5` the height is `10` and the module at
`z = -10` lies outside `[-height/2, height/2]`: the bounding cylinder does
not contain all modules. -/
theorem outer_cylinder_not_containing :
    ∃ d, Detector.init [mLow, mHigh] = Except.ok d
      ∧ ¬ (∀ mod ∈ [mLow, mHigh],
            |mod.pos.z| ≤ d.outer_cylinder.2 / 2) := by
  refine ⟨_, rfl, fun hall => ?_⟩
  have h := hall mLow (List.mem_cons_self _ _)
  have h2 : |(-10 : ℝ)| ≤ 2 * |max (-10 : ℝ) 5| / 2 := h
  rw [max_eq_right (by norm_num : (-10 : ℝ) ≤ 5)] at h2
  rw [show |(-10 : ℝ)| = 10 by rw [abs_neg]; exact abs_of_nonneg (by norm_num)]
    at h2
  rw [show |(5 : ℝ)| = 5 from abs_of_nonneg (by norm_num)] at h2
  norm_num at h2

/-- C6 amended: the cylinder radius does contain (and is attained by) all
horizontal module positions; the height, being `2 * |max z|`, contains all
modules provided the maximal z-coordinate is nonnegative and no module
lies below `-max z` (e.g. any vertically symmetric layout), and both
bounds are then attained. -/
theorem outer_cylinder_amended (m : Module) (ms : List Module) (d : Detector)
    (h : Detector.init (m :: ms) = Except.ok d)
    (h0 : 0 ≤ listMax1 m.pos.z (ms.map fun k => k.pos.z))
    (hz : ∀ mod ∈ m :: ms,
      -(listMax1 m.pos.z (ms.map fun k => k.pos.z)) ≤ mod.pos.z) :
    (∀ mod ∈ m :: ms,
      normXY mod.pos ≤ d.outer_cylinder.1
        ∧ |mod.pos.z| ≤ d.outer_cylinder.2 / 2)
    ∧ (∃ mod ∈ m :: ms, normXY mod.pos = d.outer_cylinder.1)
    ∧ (∃ mod ∈ m :: ms, |mod.pos.z| = d.outer_cylinder.2 / 2) := by
  obtain ⟨-, hc1, hc2, -⟩ := Detector.init_fields m ms d h
  rw [hc1, hc2]
  have habs : |listMax1 m.pos.z (ms.map fun k => k.pos.z)|
      = listMax1 m.pos.z (ms.map fun k => k.pos.z) := abs_of_nonneg h0
  have hhalf : 2 * |listMax1 m.pos.z (ms.map fun k => k.pos.z)| / 2
      = listMax1 m.pos.z (ms.map fun k => k.pos.z) := by rw [habs]; ring
  refine ⟨?_, ?_, ?_⟩
  · intro mod hmod
    constructor
    · rcases List.mem_cons.mp hmod with hm | hm
      · subst hm; exact le_listMax1_left _ _
      · exact le_listMax1_of_mem (normXY m.pos) (List.mem_map.mpr ⟨mod, hm, rfl⟩)
    · rw [hhalf, abs_le]
      refine ⟨hz mod hmod, ?_⟩
      rcases List.mem_cons.mp hmod with hm | hm
      · subst hm; exact le_listMax1_left _ _
      · exact le_listMax1_of_mem m.pos.z (List.mem_map.mpr ⟨mod, hm, rfl⟩)
  · rcases listMax1_eq_or_mem (normXY m.pos) (ms.map fun k => normXY k.pos)
        with h1 | h1
    · exact ⟨m, List.mem_cons_self m ms, h1.symm⟩
    · rcases List.mem_map.mp h1 with ⟨k, hk, hkeq⟩
      exact ⟨k, List.mem_cons_of_mem m hk, hkeq⟩
  · rcases listMax1_eq_or_mem m.pos.z (ms.map fun k => k.pos.z) with h1 | h1
    · refine ⟨m, List.mem_cons_self m ms, ?_⟩
      rw [hhalf, h1]
      exact h1 ▸ habs
    · rcases List.mem_map.mp h1 with ⟨k, hk, hkeq⟩
      refine ⟨k, List.mem_cons_of_mem m hk, ?_⟩
      rw [hhalf, hkeq]
      exact habs

/-- Module at `(0, 0, -1)`, part of a symmetric pair. -/
def mSymDown : Module := ⟨⟨0, 0, -1⟩, (1, 0), 1, 0.2⟩

/-- Module at `(0, 0, 1)`, part of a symmetric pair. -/
def mSymUp : Module := ⟨⟨0, 0, 1⟩, (1, 1), 1, 0.2⟩

/-- Witness for the amended C6 on the symmetric pair `z = -1, 1`. -/
theorem outer_cylinder_amended_witness :
    ∃ d, Detector.init [mSymDown, mSymUp] = Except.ok d
      ∧ ((∀ mod ∈ [mSymDown, mSymUp],
            normXY mod.pos ≤ d.outer_cylinder.1
              ∧ |mod.pos.z| ≤ d.outer_cylinder.2 / 2)
        ∧ (∃ mod ∈ [mSymDown, mSymUp], normXY mod.pos = d.outer_cylinder.1)
        ∧ (∃ mod ∈ [mSymDown, mSymUp],
            |mod.pos.z| = d.outer_cylinder.2 / 2)) := by
  have hmax : max (-1 : ℝ) 1 = 1 := max_eq_right (by norm_num)
  refine ⟨_, rfl, outer_cylinder_amended mSymDown [mSymUp] _ rfl ?_ ?_⟩
  · show (0 : ℝ) ≤ max (-1 : ℝ) 1
    rw [hmax]; norm_num
  · intro mod hmod
    rcases List.mem_cons.mp hmod with hm | hm
    · subst hm
      show -(max (-1 : ℝ) 1) ≤ (-1 : ℝ)
      rw [hmax]
    · rcases List.mem_cons.mp hm with hm2 | hm2
      · subst hm2
        show -(max (-1 : ℝ) 1) ≤ (1 : ℝ)
        rw [hmax]; norm_num
      · cases hm2

/-- For `r ≥ 0`, a point at radius `r` and angle `t` on a circle has
horizontal norm exactly `r`. -/
theorem sqrt_circle (r t : ℝ) (hr : 0 ≤ r) :
    Real.sqrt ((r * Real.sin t) ^ 2 + (r * Real.cos t) ^ 2) = r := by
  have h : (r * Real.sin t) ^ 2 + (r * Real.cos t) ^ 2 = r ^ 2 := by
    linear_combination (r ^ 2) * Real.sin_sq_add_cos_sq t
  rw [h, Real.sqrt_sq hr]

/-- Source `sample_cylinder_volume(height, radius, n, rng)` from `detector.py`.
The draws of the generator are passed explicitly: `thetaDraw i ~ U(0, 2π)`,
`uDraw i ~ U(0, 1)` and `zDraw i ~ U(-height/2, height/2)` are the i-th
entries of `rng.uniform(0, 2*pi, n)`, `rng.uniform(0, 1, n)` and
`rng.uniform(-height/2, height/2, n)`; the point is
`(r sin θ, r cos θ, z)` with `r = radius * sqrt(u)`. -/
noncomputable def sample_cylinder_volume (height radius : ℝ) (n : ℕ)
    (thetaDraw uDraw zDraw : ℕ → ℝ) : List (ℝ × ℝ × ℝ) :=
  (List.range n).map fun i =>
    (radius * Real.sqrt (uDraw i) * Real.sin (thetaDraw i),
     radius * Real.sqrt (uDraw i) * Real.cos (thetaDraw i),
     zDraw i)

/-- Source `sample_cylinder_surface(height, radius, n, rng)` from `detector.py`.
Sample `i` is a cap point when its `U(0, 1)` draw is below
`top_area / (top_area + side_area)` with `top_area = 2πr²` and
`side_area = 2πrh` (the boolean-mask assignment of the source is modelled
per index); cap points use `r = radius * sqrt(u)` and `z = ±height/2`
(`rng.choice`, modelled by `capSignDraw`), side points use `r = radius`
and a `U(-height/2, height/2)` draw for `z`. -/
noncomputable def sample_cylinder_surface (height radius : ℝ) (n : ℕ)
    (isTopDraw thetaDraw capUDraw : ℕ → ℝ) (capSignDraw : ℕ → Bool)
    (sideZDraw : ℕ → ℝ) : List (ℝ × ℝ × ℝ) :=
  (List.range n).map fun i =>
    if isTopDraw i < 2 * Real.pi * radius ^ 2
        / (2 * Real.pi * radius ^ 2 + 2 * Real.pi * radius * height) then
      (radius * Real.sqrt (capUDraw i) * Real.sin (thetaDraw i),
       radius * Real.sqrt (capUDraw i) * Real.cos (thetaDraw i),
       if capSignDraw i then height / 2 else -(height / 2))
    else
      (radius * Real.sin (thetaDraw i), radius * Real.cos (thetaDraw i),
       sideZDraw i)

/-- C2: for nonnegative height and radius, every point of
`sample_cylinder_volume` lies in the solid cylinder
(`sqrt(x²+y²) ≤ radius`, `|z| ≤ height/2`), and every point of
`sample_cylinder_surface` lies on the lateral surface
(`sqrt(x²+y²) = radius`) or on a cap (`|z| = height/2`). The range
hypotheses are exactly what `rng.uniform` guarantees for each draw. -/
theorem cylinder_samplers_within (height radius : ℝ) (n : ℕ)
    (thetaDraw uDraw zDraw isTopDraw capUDraw sideZDraw : ℕ → ℝ)
    (capSignDraw : ℕ → Bool)
    (hh : 0 ≤ height) (hr : 0 ≤ radius)
    (hu : ∀ i, 0 ≤ uDraw i ∧ uDraw i ≤ 1)
    (hz : ∀ i, -(height / 2) ≤ zDraw i ∧ zDraw i ≤ height / 2)
    (hcu : ∀ i, 0 ≤ capUDraw i ∧ capUDraw i ≤ 1)
    (hsz : ∀ i, -(height / 2) ≤ sideZDraw i ∧ sideZDraw i ≤ height / 2) :
    (∀ p ∈ sample_cylinder_volume height radius n thetaDraw uDraw zDraw,
      Real.sqrt (p.1 ^ 2 + p.2.1 ^ 2) ≤ radius ∧ |p.2.2| ≤ height / 2)
    ∧ (∀ p ∈ sample_cylinder_surface height radius n isTopDraw thetaDraw
          capUDraw capSignDraw sideZDraw,
        Real.sqrt (p.1 ^ 2 + p.2.1 ^ 2) = radius ∨ |p.2.2| = height / 2) := by
  constructor
  · intro p hp
    rw [sample_cylinder_volume, List.mem_map] at hp
    obtain ⟨i, -, rfl⟩ := hp
    constructor
    · have hrad : 0 ≤ radius * Real.sqrt (uDraw i) :=
        mul_nonneg hr (Real.sqrt_nonneg _)
      calc Real.sqrt ((radius * Real.sqrt (uDraw i) * Real.sin (thetaDraw i)) ^ 2
            + (radius * Real.sqrt (uDraw i) * Real.cos (thetaDraw i)) ^ 2)
          = radius * Real.sqrt (uDraw i) := sqrt_circle _ _ hrad
        _ ≤ radius * 1 :=
            mul_le_mul_of_nonneg_left (Real.sqrt_le_one.mpr (hu i).2) hr
        _ = radius := mul_one radius
    · exact abs_le.mpr ⟨(hz i).1, (hz i).2⟩
  · intro p hp
    rw [sample_cylinder_surface, List.mem_map] at hp
    obtain ⟨i, -, rfl⟩ := hp
    by_cases htop : isTopDraw i < 2 * Real.pi * radius ^ 2
        / (2 * Real.pi * radius ^ 2 + 2 * Real.pi * radius * height)
    · right
      rw [if_pos htop]
      rcases Bool.eq_false_or_eq_true (capSignDraw i) with hs | hs
      · rw [hs]
        show |height / 2| = height / 2
        exact abs_of_nonneg (by linarith)
      · rw [hs]
        show |(-(height / 2))| = height / 2
        rw [abs_neg]
        exact abs_of_nonneg (by linarith)
    · left
      rw [if_neg htop]
      exact sqrt_circle radius (thetaDraw i) hr

/-- Witness for C2 at height 2, radius 1, one sample per sampler. -/
theorem cylinder_samplers_within_witness :
    ((0 : ℝ) ≤ 2 ∧ (0 : ℝ) ≤ 1
      ∧ (∀ i : ℕ, (0 : ℝ) ≤ 1 ∧ (1 : ℝ) ≤ 1)
      ∧ (∀ i : ℕ, -((2 : ℝ) / 2) ≤ 0 ∧ (0 : ℝ) ≤ 2 / 2))
    ∧ ((∀ p ∈ sample_cylinder_volume 2 1 1 (fun j => 0) (fun j => 1)
          (fun j => 0),
        Real.sqrt (p.1 ^ 2 + p.2.1 ^ 2) ≤ 1 ∧ |p.2.2| ≤ 2 / 2)
      ∧ (∀ p ∈ sample_cylinder_surface 2 1 1 (fun j => 0) (fun j => 0)
            (fun j => 1) (fun j => true) (fun j => 0),
          Real.sqrt (p.1 ^ 2 + p.2.1 ^ 2) = 1 ∨ |p.2.2| = 2 / 2)) :=
  ⟨⟨by norm_num, by norm_num, fun i => by norm_num, fun i => by norm_num⟩,
    cylinder_samplers_within 2 1 1 (fun j => 0) (fun j => 1) (fun j => 0)
      (fun j => 0) (fun j => 1) (fun j => 0) (fun j => true)
      (by norm_num) (by norm_num) (fun i => by norm_num) (fun i => by norm_num)
      (fun i => by norm_num) (fun i => by norm_num)⟩

/-- Source `sample_direction(n_samples, rng)` from `detector.py`:
`cos_theta = rng.uniform(-1, 1, n_samples)` is passed as `cosThetaDraw`;
`phi = rng.uniform(0, 2*pi)` is a single scalar drawn once for the whole
batch, passed as `phiDraw`; sample `i` is
`(sin θ_i cos φ, sin θ_i sin φ, cos θ_i)` with `θ_i = arccos(cos_theta_i)`. -/
noncomputable def sample_direction (n_samples : ℕ) (cosThetaDraw : ℕ → ℝ)
    (phiDraw : ℝ) : List (ℝ × ℝ × ℝ) :=
  (List.range n_samples).map fun i =>
    (Real.sin (Real.arccos (cosThetaDraw i)) * Real.cos phiDraw,
     Real.sin (Real.arccos (cosThetaDraw i)) * Real.sin phiDraw,
     Real.cos (Real.arccos (cosThetaDraw i)))

/-- Element `i` of `(List.range n).map f` is `f i`. -/
theorem getD_range_map {α : Type} (f : ℕ → α) (n i : ℕ) (h : i < n) (d : α) :
    (((List.range n).map f).getD i d) = f i := by
  rw [List.getD_eq_getD_get?, List.get?_map, List.get?_range h]
  rfl

/-- C3: every vector produced by `sample_direction` is a unit vector; the
`i`-th sample is exactly `(sin θ_i cos φ, sin θ_i sin φ, cos θ_i)` with
`cos θ_i` the `i`-th Uniform(-1,1) draw; and all samples of a batch share
the one azimuth draw, so the cross products of the horizontal components
of any two samples agree. -/
theorem sample_direction_unit_shared_azimuth (n : ℕ) (c : ℕ → ℝ) (φ : ℝ)
    (hc : ∀ i, -1 ≤ c i ∧ c i ≤ 1) :
    (∀ p ∈ sample_direction n c φ, p.1 ^ 2 + p.2.1 ^ 2 + p.2.2 ^ 2 = 1)
    ∧ (∀ i, i < n →
        (sample_direction n c φ).getD i default
          = (Real.sin (Real.arccos (c i)) * Real.cos φ,
             Real.sin (Real.arccos (c i)) * Real.sin φ, c i))
    ∧ (∀ p ∈ sample_direction n c φ, ∀ q ∈ sample_direction n c φ,
        p.1 * q.2.1 = q.1 * p.2.1) := by
  refine ⟨?_, ?_, ?_⟩
  · intro p hp
    rw [sample_direction, List.mem_map] at hp
    obtain ⟨i, -, rfl⟩ := hp
    linear_combination
      (Real.sin (Real.arccos (c i))) ^ 2 * Real.sin_sq_add_cos_sq φ
        + Real.sin_sq_add_cos_sq (Real.arccos (c i))
  · intro i hi
    rw [sample_direction, getD_range_map _ _ _ hi]
    rw [Real.cos_arccos (hc i).1 (hc i).2]
  · intro p hp q hq
    rw [sample_direction, List.mem_map] at hp hq
    obtain ⟨i, -, rfl⟩ := hp
    obtain ⟨j, -, rfl⟩ := hq
    ring

/-- Witness for C3 with two samples, draws `0` and `1/2`, azimuth `π/3`. -/
theorem sample_direction_unit_shared_azimuth_witness :
    (∀ i : ℕ, -1 ≤ (if i = 0 then (0 : ℝ) else 1 / 2)
      ∧ (if i = 0 then (0 : ℝ) else 1 / 2) ≤ 1)
    ∧ ((∀ p ∈ sample_direction 2 (fun i => if i = 0 then (0 : ℝ) else 1 / 2)
          (Real.pi / 3), p.1 ^ 2 + p.2.1 ^ 2 + p.2.2 ^ 2 = 1)
      ∧ (∀ i, i < 2 →
          (sample_direction 2 (fun i => if i = 0 then (0 : ℝ) else 1 / 2)
              (Real.pi / 3)).getD i default
            = (Real.sin (Real.arccos (if i = 0 then (0 : ℝ) else 1 / 2))
                  * Real.cos (Real.pi / 3),
               Real.sin (Real.arccos (if i = 0 then (0 : ℝ) else 1 / 2))
                  * Real.sin (Real.pi / 3),
               if i = 0 then (0 : ℝ) else 1 / 2))
      ∧ (∀ p ∈ sample_direction 2 (fun i => if i = 0 then (0 : ℝ) else 1 / 2)
            (Real.pi / 3),
          ∀ q ∈ sample_direction 2 (fun i => if i = 0 then (0 : ℝ) else 1 / 2)
            (Real.pi / 3), p.1 * q.2.1 = q.1 * p.2.1)) :=
  ⟨fun i => by by_cases h : i = 0 <;> simp [h] <;> norm_num,
    sample_direction_unit_shared_azimuth 2
      (fun i => if i = 0 then (0 : ℝ) else 1 / 2) (Real.pi / 3)
      (fun i => by by_cases h : i = 0 <;> simp [h] <;> norm_num)⟩

/-- NumPy `np.linspace(start, stop, num)` evaluated at index `i`: for
`num ≥ 2` this is `start + i * (stop - start) / (num - 1)`; `num = 1`
gives `[start]`; `num = 0` gives no points (the caller maps over
`List.range num`, so the branch is then unused). -/
noncomputable def linspace (start stop : ℝ) (num : ℕ) (i : ℕ) : ℝ :=
  if num ≤ 1 then start else start + i * ((stop - start) / ((num : ℝ) - 1))

/-- The documented scipy location-scale convention:
`scipy.stats.gamma.rvs(a, loc, scale, random_state)` returns
`loc + scale * g` where `g` is a draw from the standard gamma
distribution with shape `a` (the shape enters only through the
distribution of the draw, which is the explicit argument here).
`make_line` calls `gamma.rvs(1, 0.25)`, i.e. positionally `a = 1`,
`loc = 0.25` and the default `scale = 1`. -/
def scipy_gamma_rvs (a loc scale gdraw : ℝ) : ℝ := loc + scale * gdraw

/-- Source `make_line(x, y, n_z, dist_z, rng, baseline_noise_rate, line_id,
efficiency)` from `detector.py`: module `i` sits at
`(x, y, linspace(-dist_z*n_z/2, dist_z*n_z/2, n_z)[i])`, has key
`(line_id, i)` and noise rate
`gamma.rvs(1, 0.25, random_state=rng) * baseline_noise_rate`, whose
standard-gamma draw for module `i` is `gammaDraw i`. -/
noncomputable def make_line (x y : ℝ) (n_z : ℕ) (dist_z : ℝ)
    (gammaDraw : ℕ → ℝ) (baseline_noise_rate : ℝ) (line_id : ℤ)
    (efficiency : ℝ) : List Module :=
  (List.range n_z).map fun i =>
    { pos := ⟨x, y, linspace (-dist_z * (n_z : ℝ) / 2) (dist_z * (n_z : ℝ) / 2) n_z i⟩
      key := (line_id, i)
      noise_rate := scipy_gamma_rvs 1 0.25 1 (gammaDraw i) * baseline_noise_rate
      efficiency := efficiency }

/-- C4: for positive spacing and at least two modules, `make_line`
produces exactly `n_z` modules at fixed `(x, y)` with keys
`(line_id, i)`, z-coordinates running from `-dist_z*n_z/2` (module 0) to
`+dist_z*n_z/2` (module `n_z - 1`), consecutive spacing
`dist_z*n_z/(n_z-1)` and strictly increasing. -/
theorem make_line_evenly_spaced (x y : ℝ) (n_z : ℕ) (dist_z : ℝ)
    (gammaDraw : ℕ → ℝ) (b : ℝ) (lid : ℤ) (eff : ℝ)
    (hd : 0 < dist_z) (hn : 2 ≤ n_z) :
    (make_line x y n_z dist_z gammaDraw b lid eff).length = n_z
    ∧ (∀ i, i < n_z →
        ((make_line x y n_z dist_z gammaDraw b lid eff).getD i default).key
            = (lid, i)
        ∧ ((make_line x y n_z dist_z gammaDraw b lid eff).getD i default).pos.x
            = x
        ∧ ((make_line x y n_z dist_z gammaDraw b lid eff).getD i default).pos.y
            = y)
    ∧ ((make_line x y n_z dist_z gammaDraw b lid eff).getD 0 default).pos.z
        = -dist_z * (n_z : ℝ) / 2
    ∧ ((make_line x y n_z dist_z gammaDraw b lid eff).getD (n_z - 1)
          default).pos.z
        = dist_z * (n_z : ℝ) / 2
    ∧ (∀ i, i + 1 < n_z →
        ((make_line x y n_z dist_z gammaDraw b lid eff).getD (i + 1)
              default).pos.z
            - ((make_line x y n_z dist_z gammaDraw b lid eff).getD i
              default).pos.z
          = dist_z * (n_z : ℝ) / ((n_z : ℝ) - 1)
        ∧ ((make_line x y n_z dist_z gammaDraw b lid eff).getD i
              default).pos.z
          < ((make_line x y n_z dist_z gammaDraw b lid eff).getD (i + 1)
              default).pos.z) := by
  have hnz : ¬ n_z ≤ 1 := by omega
  have hden : (0 : ℝ) < (n_z : ℝ) - 1 := by
    have : (2 : ℝ) ≤ (n_z : ℝ) := by exact_mod_cast hn
    linarith
  have hstep : (0 : ℝ) <
      (dist_z * (n_z : ℝ) / 2 - -dist_z * (n_z : ℝ) / 2) / ((n_z : ℝ) - 1) := by
    apply div_pos _ hden
    have hnpos : (0 : ℝ) < (n_z : ℝ) := by
      have : (2 : ℝ) ≤ (n_z : ℝ) := by exact_mod_cast hn
      linarith
    nlinarith
  refine ⟨by rw [make_line, List.length_map, List.length_range], ?_, ?_, ?_, ?_⟩
  · intro i hi
    rw [make_line, getD_range_map _ _ _ hi]
    exact ⟨rfl, rfl, rfl⟩
  · rw [make_line, getD_range_map _ _ _ (by omega)]
    show linspace (-dist_z * (n_z : ℝ) / 2) (dist_z * (n_z : ℝ) / 2) n_z 0
      = -dist_z * (n_z : ℝ) / 2
    rw [linspace, if_neg hnz]
    norm_num
  · rw [make_line, getD_range_map _ _ _ (by omega)]
    show linspace (-dist_z * (n_z : ℝ) / 2) (dist_z * (n_z : ℝ) / 2) n_z
        (n_z - 1) = dist_z * (n_z : ℝ) / 2
    rw [linspace, if_neg hnz]
    have hcast : ((n_z - 1 : ℕ) : ℝ) = (n_z : ℝ) - 1 := by
      have h1 : 1 ≤ n_z := by omega
      push_cast [Nat.cast_sub h1]
      ring
    rw [hcast]
    field_simp
    ring
  · intro i hi
    rw [make_line, getD_range_map _ _ _ hi, getD_range_map _ _ _ (by omega)]
    show linspace (-dist_z * (n_z : ℝ) / 2) (dist_z * (n_z : ℝ) / 2) n_z (i + 1)
          - linspace (-dist_z * (n_z : ℝ) / 2) (dist_z * (n_z : ℝ) / 2) n_z i
        = dist_z * (n_z : ℝ) / ((n_z : ℝ) - 1)
      ∧ linspace (-dist_z * (n_z : ℝ) / 2) (dist_z * (n_z : ℝ) / 2) n_z i
        < linspace (-dist_z * (n_z : ℝ) / 2) (dist_z * (n_z : ℝ) / 2) n_z (i + 1)
    simp only [linspace, if_neg hnz]
    have hne : (n_z : ℝ) - 1 ≠ 0 := ne_of_gt hden
    constructor
    · push_cast
      field_simp
      ring
    · push_cast
      linarith [hstep]

/-- Witness for C4 with two modules and unit spacing. -/
theorem make_line_evenly_spaced_witness :
    ((0 : ℝ) < 1 ∧ 2 ≤ 2)
    ∧ (make_line 0 0 2 1 (fun j => 0) 1 7 0.2).length = 2 :=
  ⟨⟨by norm_num, by norm_num⟩,
    (make_line_evenly_spaced 0 0 2 1 (fun j => 0) 1 7 0.2 (by norm_num)
      (by norm_num)).1⟩

/-- The noise rate as the words of the spec describe it (for comparison with
the source): a Gamma(shape 1, scale 0.25) draw — i.e. `0.25` times a
standard shape-1 (exponential) draw `gdraw` — multiplied by the
baseline, with support starting at 0. -/
def specNoiseRate (gdraw baseline : ℝ) : ℝ := 0.25 * gdraw * baseline

/-- C5 counterexample: with standard-gamma draw 1 and baseline 1, the
module built by `make_line` has noise rate `0.25 + 1 = 1.25` (the scipy call
`gamma.rvs(1, 0.25)` passes `0.25` as `loc`, not `scale`), while a
Gamma(1, scale 0.25) draw scaled by the baseline would be `0.25`. -/
theorem make_line_noise_rate_not_spec :
    ((make_line 0 0 1 1 (fun j => 1) 1 0 0.2).getD 0 default).noise_rate
        = 1.25
    ∧ ((make_line 0 0 1 1 (fun j => 1) 1 0 0.2).getD 0 default).noise_rate
        ≠ specNoiseRate 1 1 := by
  have h : ((make_line 0 0 1 1 (fun j => 1) 1 0 0.2).getD 0 default).noise_rate
      = 1.25 := by
    rw [make_line, getD_range_map _ _ _ (by norm_num)]
    show scipy_gamma_rvs 1 0.25 1 1 * 1 = 1.25
    rw [scipy_gamma_rvs]
    norm_num
  refine ⟨h, ?_⟩
  rw [h, specNoiseRate]
  norm_num

/-- C5 amended: the noise rate of module `i` of `make_line` is
`(0.25 + g_i) * baseline` where `g_i` is a standard shape-1 gamma
(exponential) draw: the scipy call `gamma.rvs(1, 0.25)` is a shape-1 gamma with
location 0.25 and scale 1, so `noise_rate / baseline` has support
starting at 0.25, and the rate is bounded below by `0.25 * baseline`
whenever the draw and the baseline are nonnegative. -/
theorem make_line_noise_rate_amended (x y : ℝ) (n_z : ℕ) (dist_z : ℝ)
    (gammaDraw : ℕ → ℝ) (b : ℝ) (lid : ℤ) (eff : ℝ) (i : ℕ)
    (hi : i < n_z) (hg : 0 ≤ gammaDraw i) (hb : 0 ≤ b) :
    ((make_line x y n_z dist_z gammaDraw b lid eff).getD i default).noise_rate
        = (0.25 + gammaDraw i) * b
    ∧ 0.25 * b ≤
      ((make_line x y n_z dist_z gammaDraw b lid eff).getD i
          default).noise_rate := by
  have h : ((make_line x y n_z dist_z gammaDraw b lid eff).getD i
      default).noise_rate = (0.25 + gammaDraw i) * b := by
    rw [make_line, getD_range_map _ _ _ hi]
    show scipy_gamma_rvs 1 0.25 1 (gammaDraw i) * b = (0.25 + gammaDraw i) * b
    rw [scipy_gamma_rvs]
    ring
  refine ⟨h, ?_⟩
  rw [h]
  nlinarith [mul_nonneg hg hb]

/-- Witness for the amended C5 at one module, draw 1, baseline 1. -/
theorem make_line_noise_rate_amended_witness :
    ((0 : ℕ) < 1 ∧ (0 : ℝ) ≤ 1 ∧ (0 : ℝ) ≤ 1)
    ∧ (((make_line 0 0 1 2 (fun j => 1) 1 3 0.2).getD 0 default).noise_rate
          = (0.25 + 1) * 1
      ∧ (0.25 : ℝ) * 1 ≤
        ((make_line 0 0 1 2 (fun j => 1) 1 3 0.2).getD 0
            default).noise_rate) :=
  ⟨⟨by norm_num, by norm_num, by norm_num⟩,
    make_line_noise_rate_amended 0 0 1 2 (fun j => 1) 1 3 0.2 0 (by norm_num)
      (by norm_num) (by norm_num)⟩

/-- Insert a rational into a sorted list, keeping it sorted. -/
def insertSorted (a : ℚ) : List ℚ → List ℚ
  | [] => [a]
  | b :: t => if a ≤ b then a :: b :: t else b :: insertSorted a t

/-- Awkward `ak.sort` on one innermost list: sort the hit times ascending
(insertion sort). -/
def sortTimes : List ℚ → List ℚ
  | [] => []
  | a :: t => insertSorted a (sortTimes t)

/-- Source `generate_noise(det, time_range, rng)` from `detector.py`: for each
module index, draw a Poisson count with mean
`noise_rate * (time_range[1] - time_range[0])` (the draw function
`poissonDraw` receives the module index and that mean), then draw that
many uniform hit times in the range (`uniformDraw i j` is draw `j` for
module `i`), and sort the times of each module (`ak.sort`). -/
def generate_noise (det : Detector) (time_range : ℚ × ℚ)
    (poissonDraw : ℕ → ℝ → ℕ) (uniformDraw : ℕ → ℕ → ℚ) : List (List ℚ) :=
  (List.range det.modules.length).map fun idom =>
    sortTimes ((List.range (poissonDraw idom
        ((det.modules.getD idom default).noise_rate
          * ((time_range.2 - time_range.1 : ℚ) : ℝ)))).map
      fun j => uniformDraw idom j)

/-- C8: when the noise rate of every module is 0, every per-module sequence of
`generate_noise` is empty (for any time range), because a Poisson draw
with mean 0 is 0 — `rng.poisson(0)` returns 0 with certainty, recorded as
the hypothesis `hpois`; more generally any module whose Poisson draw is 0
contributes an empty sequence. -/
theorem generate_noise_zero_rate (det : Detector) (time_range : ℚ × ℚ)
    (poissonDraw : ℕ → ℝ → ℕ) (uniformDraw : ℕ → ℕ → ℚ)
    (hpois : ∀ i, poissonDraw i 0 = 0) :
    ((∀ m ∈ det.modules, m.noise_rate = 0) →
      ∀ l ∈ generate_noise det time_range poissonDraw uniformDraw, l = [])
    ∧ (∀ i, i < det.modules.length →
        poissonDraw i ((det.modules.getD i default).noise_rate
            * ((time_range.2 - time_range.1 : ℚ) : ℝ)) = 0 →
        (generate_noise det time_range poissonDraw uniformDraw).getD i []
          = []) := by
  constructor
  · intro hrate l hl
    rw [generate_noise, List.mem_map] at hl
    obtain ⟨i, hi, rfl⟩ := hl
    rw [List.mem_range] at hi
    have hmem : det.modules.getD i default ∈ det.modules := by
      rw [List.getD_eq_getElem?_getD, List.getElem?_eq_getElem hi]
      exact List.getElem_mem hi
    rw [hrate _ hmem, zero_mul, hpois, List.range_zero, List.map_nil]
    rfl
  · intro i hi hdraw
    rw [generate_noise, getD_range_map _ _ _ (by simpa using hi)]
    rw [hdraw, List.range_zero, List.map_nil]
    rfl

/-- A detector whose single module has noise rate 0 (the derived fields
are irrelevant to noise generation). -/
def zeroNoiseDetector : Detector :=
  { modules := [⟨⟨0, 0, 0⟩, (0, 0), 0, 0.2⟩]
    module_coords := [⟨0, 0, 0⟩]
    module_efficiencies := [0.2]
    module_noise_rates := [0]
    outer_radius := 0
    outer_cylinder := (0, 0)
    n_modules := 1 }

/-- Witness for C8 on a one-module zero-noise detector. -/
theorem generate_noise_zero_rate_witness :
    (∀ i : ℕ, (fun _ _ => (0 : ℕ)) i (0 : ℝ) = 0)
    ∧ (((∀ m ∈ zeroNoiseDetector.modules, m.noise_rate = 0) →
        ∀ l ∈ generate_noise zeroNoiseDetector (0, 1) (fun _ _ => 0)
          (fun _ _ => 0), l = [])
      ∧ (∀ i, i < zeroNoiseDetector.modules.length →
          (fun _ _ => (0 : ℕ)) i
              ((zeroNoiseDetector.modules.getD i default).noise_rate
                * (((0, 1) : ℚ × ℚ).2 - ((0, 1) : ℚ × ℚ).1 : ℚ)) = 0 →
          (generate_noise zeroNoiseDetector (0, 1) (fun _ _ => 0)
              (fun _ _ => 0)).getD i [] = [])) :=
  ⟨fun i => rfl,
    generate_noise_zero_rate zeroNoiseDetector (0, 1) (fun _ _ => 0)
      (fun _ _ => 0) (fun i => rfl)⟩

end Nemesis
